import Mathlib

/-!
Verification of the royalroad-dl downloader core against its specification.

The Rust source is shallowly embedded:
* `BufferedIter` (src/lib.rs): the iterator is modelled as the list of
  elements it has yet to yield; `VecDeque` is a Lean list.
* `ChapterUrl` (src/main.rs): a URL is modelled by its components; the
  url crate's `path_segments` returns `none` for cannot-be-a-base URLs
  (mailto:, data:, ...), otherwise the list of path segments.
* The output file (tokio::fs::File) is a list of characters plus a cursor;
  `write_all` overwrites at the cursor (zero-filling any seek-past-end gap,
  as POSIX does) and `seek` moves the cursor.
-/

/-! ## BufferedIter (src/lib.rs) -/

/-- Model of `BufferedIter` (src/lib.rs): the not-yet-pulled remainder of the
source iterator plus the `VecDeque` buffer. -/
structure BufferedIter (α : Type) where
  iter : List α
  buffer : List α
deriving DecidableEq, Repr

/-- Constructor `BufferedIter::new`: drain the whole source into the buffer when
`limit == 0`, otherwise take up to `limit` elements. -/
def BufferedIter.new (it : List α) (limit : Nat) : BufferedIter α :=
  if limit = 0 then { iter := [], buffer := it }
  else { iter := it.drop limit, buffer := it.take limit }

/-- The `Iterator::next` implementation for `BufferedIter`: pop the buffer front, then, if the
source has another element, push it to the buffer back. Returns the yielded
element together with the successor state. -/
def BufferedIter.next (b : BufferedIter α) : Option α × BufferedIter α :=
  let res := b.buffer.head?
  match b.iter with
  | [] => (res, { iter := [], buffer := b.buffer.tail })
  | x :: rest => (res, { iter := rest, buffer := b.buffer.tail ++ [x] })

/-- Method `BufferedIter::len`: number of items currently buffered. -/
def BufferedIter.len (b : BufferedIter α) : Nat :=
  b.buffer.length

/-- Repeatedly call `next`, collecting yielded elements, until `next`
returns `None` (how the consuming `for` loop uses the iterator).
Fuelled so that the recursion is structural. -/
def BufferedIter.drainAux : Nat → BufferedIter α → List α
  | 0, _ => []
  | fuel + 1, b =>
    match b.next with
    | (none, _) => []
    | (some x, b') => x :: BufferedIter.drainAux fuel b'

/-- The full sequence of elements yielded by the iterator. The fuel
`iter.length + buffer.length` bounds the number of `some` results. -/
def BufferedIter.drain (b : BufferedIter α) : List α :=
  BufferedIter.drainAux (b.iter.length + b.buffer.length) b

lemma BufferedIter.drainAux_eq (fuel : Nat) :
    ∀ (it buf : List α), (buf = [] → it = []) →
      it.length + buf.length ≤ fuel →
      BufferedIter.drainAux fuel ⟨it, buf⟩ = buf ++ it := by
  induction fuel with
  | zero =>
    intro it buf _ hle
    have hbuf : buf = [] := by
      cases buf with
      | nil => rfl
      | cons a l => simp at hle
    have hit : it = [] := by
      cases it with
      | nil => rfl
      | cons a l => simp at hle
    subst hbuf; subst hit; rfl
  | succ n ih =>
    intro it buf hinv hle
    cases buf with
    | nil =>
      have hit : it = [] := hinv rfl
      subst hit
      rfl
    | cons x bs =>
      cases it with
      | nil =>
        have h1 : BufferedIter.drainAux (n + 1) ⟨([] : List α), x :: bs⟩ =
            x :: BufferedIter.drainAux n ⟨[], bs⟩ := rfl
        rw [h1, ih [] bs (fun _ => rfl) (by simpa using Nat.le_of_succ_le_succ (by simpa using hle))]
        simp
      | cons y rest =>
        have h1 : BufferedIter.drainAux (n + 1) ⟨y :: rest, x :: bs⟩ =
            x :: BufferedIter.drainAux n ⟨rest, bs ++ [y]⟩ := rfl
        rw [h1, ih rest (bs ++ [y]) (by simp) (by simp at hle ⊢; omega)]
        simp

/-- C1: For every source iterator and every limit (including `limit = 0`),
the sequence of elements yielded by `BufferedIter` (constructed via
`BufferedIter::new` and consumed via `Iterator::next`) is exactly the
sequence the source iterator would have yielded, in the same order. -/
theorem buffered_iter_drain_eq_source (src : List α) (limit : Nat) :
    BufferedIter.drain (BufferedIter.new src limit) = src := by
  unfold BufferedIter.new BufferedIter.drain
  by_cases h : limit = 0
  · subst h
    simp only [if_pos rfl]
    have := BufferedIter.drainAux_eq (α := α) (0 + src.length) [] src
      (fun _ => rfl) (by simp)
    simpa using this
  · simp only [if_neg h]
    have hinv : src.take limit = [] → src.drop limit = [] := by
      intro htake
      rcases List.take_eq_nil_iff.mp htake with h0 | h0
      · exact absurd h0 h
      · simp [h0]
    have hlen : (src.drop limit).length + (src.take limit).length ≤
        (src.drop limit).length + (src.take limit).length := le_refl _
    have := BufferedIter.drainAux_eq (α := α)
      ((src.drop limit).length + (src.take limit).length)
      (src.drop limit) (src.take limit) hinv hlen
    rw [this]
    exact List.take_append_drop limit src

/-- States of a `BufferedIter` reachable from `a` by repeatedly calling
`next` (zero or more times). -/
inductive BufferedIter.Reach : BufferedIter α → BufferedIter α → Prop
  | refl (b : BufferedIter α) : BufferedIter.Reach b b
  | step {a b : BufferedIter α} : BufferedIter.Reach a b →
      BufferedIter.Reach a (b.next).2

lemma BufferedIter.len_next_le (b : BufferedIter α) (k : Nat) (hk : 0 < k)
    (h : b.len ≤ k) : ((b.next).2).len ≤ k := by
  unfold BufferedIter.next BufferedIter.len at *
  cases hit : b.iter with
  | nil =>
    simp only []
    calc b.buffer.tail.length ≤ b.buffer.length := by
          cases b.buffer <;> simp
      _ ≤ k := h
  | cons x rest =>
    simp only [List.length_append, List.length_cons, List.length_nil]
    cases hbuf : b.buffer with
    | nil => simpa using hk
    | cons y bs =>
      have : bs.length + 1 ≤ k := by simpa [hbuf] using h
      simpa using this

lemma BufferedIter.reach_len_le (src : List α) (k : Nat) (hk : 0 < k)
    (b : BufferedIter α) (h : BufferedIter.Reach (BufferedIter.new src k) b) :
    b.len ≤ k := by
  induction h with
  | refl =>
    unfold BufferedIter.new BufferedIter.len
    simp only [if_neg (Nat.pos_iff_ne_zero.mp hk)]
    simp [Nat.min_le_left k src.length]
  | step _ ih =>
    exact BufferedIter.len_next_le _ k hk ih

/-- C7: with `limit = k > 0` the number of admitted-but-unconsumed elements
(`BufferedIter::len`) never exceeds `k`, from construction and after every
call to `next`; with `limit = 0` the entire source is moved into the queue
during construction, before anything is yielded. -/
theorem buffered_iter_len_bound (src : List α) (k : Nat) (b : BufferedIter α) :
    (0 < k → BufferedIter.Reach (BufferedIter.new src k) b → b.len ≤ k) ∧
    ((BufferedIter.new src 0).buffer = src ∧ (BufferedIter.new src 0).iter = []) := by
  refine ⟨fun hk hr => BufferedIter.reach_len_le src k hk b hr, ?_, ?_⟩
  · unfold BufferedIter.new; simp
  · unfold BufferedIter.new; simp

/-- Witness for C7 at `src = [1,2,3]`, `k = 2`, `b` the freshly
constructed iterator. -/
theorem buffered_iter_len_bound_witness :
    (BufferedIter.new [1, 2, 3] 2).len ≤ 2 ∧
    (BufferedIter.new [1, 2, 3] 0).buffer = [1, 2, 3] :=
  ⟨(buffered_iter_len_bound [1, 2, 3] 2 (BufferedIter.new [1, 2, 3] 2)).1
      (by decide) (BufferedIter.Reach.refl _),
    (buffered_iter_len_bound [1, 2, 3] 2 (BufferedIter.new [1, 2, 3] 2)).2.1⟩

lemma BufferedIter.inv_next (b : BufferedIter α) :
    ((b.next).2).buffer = [] → ((b.next).2).iter = [] := by
  unfold BufferedIter.next
  cases hit : b.iter with
  | nil => intro _; rfl
  | cons x rest =>
    intro htail
    simp at htail

lemma BufferedIter.reach_inv (src : List α) (limit : Nat) (b : BufferedIter α)
    (h : BufferedIter.Reach (BufferedIter.new src limit) b) :
    b.buffer = [] → b.iter = [] := by
  induction h with
  | refl =>
    unfold BufferedIter.new
    by_cases h0 : limit = 0
    · subst h0; simp
    · simp only [if_neg h0]
      intro htake
      rcases List.take_eq_nil_iff.mp htake with h1 | h1
      · exact absurd h1 h0
      · simp [h1]
  | step _ _ =>
    exact BufferedIter.inv_next _

lemma BufferedIter.next_of_empty (b : BufferedIter α)
    (h1 : b.buffer = []) (h2 : b.iter = []) :
    ((b.next).2).buffer = [] ∧ ((b.next).2).iter = [] := by
  unfold BufferedIter.next
  rw [h2, h1]
  exact ⟨rfl, rfl⟩

lemma BufferedIter.reach_of_empty (b c : BufferedIter α)
    (hb : b.buffer = [] ∧ b.iter = []) (h : BufferedIter.Reach b c) :
    c.buffer = [] ∧ c.iter = [] := by
  induction h with
  | refl => exact hb
  | step _ ih =>
    exact BufferedIter.next_of_empty _ ih.1 ih.2

/-- C9: for every state reachable from a freshly constructed `BufferedIter`,
`next` returns `None` exactly when the internal queue is empty, and once it
has returned `None` every subsequent call returns `None` again. -/
theorem buffered_iter_fused (src : List α) (limit : Nat) (b : BufferedIter α)
    (h : BufferedIter.Reach (BufferedIter.new src limit) b) :
    ((b.next).1 = none ↔ b.buffer = []) ∧
    ((b.next).1 = none → ∀ c, BufferedIter.Reach b c → (c.next).1 = none) := by
  constructor
  · have hres : (b.next).1 = b.buffer.head? := by
      unfold BufferedIter.next
      cases b.iter <;> rfl
    rw [hres]
    exact List.head?_eq_none_iff
  · intro hnone c hbc
    have hbuf : b.buffer = [] := by
      have hres : (b.next).1 = b.buffer.head? := by
        unfold BufferedIter.next
        cases b.iter <;> rfl
      rw [hres] at hnone
      exact List.head?_eq_none_iff.mp hnone
    have hit : b.iter = [] := BufferedIter.reach_inv src limit b h hbuf
    have hc := BufferedIter.reach_of_empty b c ⟨hbuf, hit⟩ hbc
    have hres : (c.next).1 = c.buffer.head? := by
      unfold BufferedIter.next
      cases c.iter <;> rfl
    rw [hres, hc.1]
    rfl

/-- Witness for C9 at the exhausted iterator built from an empty source. -/
theorem buffered_iter_fused_witness :
    ((BufferedIter.new ([] : List Nat) 1).next).1 = none :=
  (buffered_iter_fused [] 1 (BufferedIter.new ([] : List Nat) 1)
    (BufferedIter.Reach.refl _)).1.mpr rfl

/-! ## ChapterUrl (src/main.rs) -/

/-- A URL from the url crate, by components. `pathSegments` models
`Url::path_segments()`: `none` for a cannot-be-a-base URL (mailto:,
data:, ...), otherwise the path split on the slashes. -/
structure Url where
  scheme : String
  host : Option String
  port : Option Nat
  pathSegments : Option (List String)
  query : Option String
  fragment : Option String
deriving DecidableEq, Repr

/-- The `ChapterUrl` newtype from src/main.rs (`struct ChapterUrl(pub Url)`). -/
structure ChapterUrl where
  url : Url
deriving DecidableEq, Repr

/-- Model of `PartialEq for ChapterUrl` (src/main.rs lines 45-57): if either URL has
no path segments, return `false`; otherwise zip the two segment sequences
(truncating at the shorter) and require every position to match except
position 2. -/
def ChapterUrl.eq (a b : ChapterUrl) : Bool :=
  match a.url.pathSegments, b.url.pathSegments with
  | some p1, some p2 =>
    ((p1.zip p2).enum).all fun x => x.1 == 2 || x.2.1 == x.2.2
  | _, _ => false

lemma chapterUrl_eq_segs_aux (p1 : List String) :
    ∀ (p2 : List String) (n : Nat),
      ((List.enumFrom n (p1.zip p2)).all fun x => x.1 == 2 || x.2.1 == x.2.2) = true ↔
        ∀ i s1 s2, p1.get? i = some s1 → p2.get? i = some s2 →
          n + i = 2 ∨ s1 = s2 := by
  induction p1 with
  | nil =>
    intro p2 n
    simp
  | cons a t1 ih =>
    intro p2 n
    cases p2 with
    | nil => simp
    | cons b t2 =>
      have hz : (a :: t1).zip (b :: t2) = (a, b) :: t1.zip t2 := rfl
      rw [hz]
      have he : List.enumFrom n ((a, b) :: t1.zip t2) =
          (n, (a, b)) :: List.enumFrom (n + 1) (t1.zip t2) := rfl
      rw [he, List.all_cons, Bool.and_eq_true]
      constructor
      · rintro ⟨hhead, htail⟩
        intro i s1 s2 h1 h2
        cases i with
        | zero =>
          simp only [List.get?] at h1 h2
          cases h1; cases h2
          have := (Bool.or_eq_true _ _).mp hhead
          rcases this with h | h
          · left
            simpa using Nat.eq_of_beq_eq_true (by simpa using h)
          · right
            simpa using h
        | succ j =>
          simp only [List.get?] at h1 h2
          have := ((ih t2 (n + 1)).mp htail) j s1 s2 h1 h2
          rcases this with h | h
          · left; omega
          · right; exact h
      · intro hall
        constructor
        · have := hall 0 a b rfl rfl
          rcases this with h | h
          · apply (Bool.or_eq_true _ _).mpr
            left
            simpa using h
          · apply (Bool.or_eq_true _ _).mpr
            right
            simpa using h
        · apply (ih t2 (n + 1)).mpr
          intro j s1 s2 h1 h2
          have := hall (j + 1) s1 s2 (by simpa using h1) (by simpa using h2)
          rcases this with h | h
          · left; omega
          · right; exact h

lemma chapterUrl_eq_segs_iff (p1 p2 : List String) :
    (((p1.zip p2).enum).all fun x => x.1 == 2 || x.2.1 == x.2.2) = true ↔
      ∀ i s1 s2, p1.get? i = some s1 → p2.get? i = some s2 →
        i = 2 ∨ s1 = s2 := by
  rw [List.enum]
  rw [chapterUrl_eq_segs_aux p1 p2 0]
  constructor
  · intro h i s1 s2 h1 h2
    simpa using h i s1 s2 h1 h2
  · intro h i s1 s2 h1 h2
    simpa using h i s1 s2 h1 h2

/-- C5 (amended): `ChapterUrl` equality holds iff both URLs have path
segments and every position of the **common prefix** (up to the shorter
segment count) matches, except possibly position 2. In particular two
locators with the same segment count are equal iff all positions other
than position 2 agree, but locators with different segment counts can
still be equal: positions beyond the shorter count are never compared. -/
theorem chapter_url_eq_characterization (a b : ChapterUrl) :
    ChapterUrl.eq a b = true ↔
      ∃ p1 p2, a.url.pathSegments = some p1 ∧ b.url.pathSegments = some p2 ∧
        ∀ i s1 s2, p1.get? i = some s1 → p2.get? i = some s2 →
          i = 2 ∨ s1 = s2 := by
  unfold ChapterUrl.eq
  cases ha : a.url.pathSegments with
  | none =>
    simp
  | some p1 =>
    cases hb : b.url.pathSegments with
    | none => simp
    | some p2 =>
      rw [chapterUrl_eq_segs_iff p1 p2]
      constructor
      · intro h
        exact ⟨p1, p2, rfl, rfl, h⟩
      · rintro ⟨q1, q2, hq1, hq2, hall⟩
        cases hq1; cases hq2
        exact hall

/-- Two URLs used below: a chapter URL with six path segments and one that
extends it with a seventh segment while also changing the title segment
(position 2). -/
def cuSix : ChapterUrl :=
  ⟨⟨"https", some "www.royalroad.com", none,
    some ["fiction", "12345", "the-title", "chapter", "1234567", "chapter-name"],
    none, none⟩⟩

def cuSeven : ChapterUrl :=
  ⟨⟨"https", some "www.royalroad.com", none,
    some ["fiction", "12345", "other-title", "chapter", "1234567", "chapter-name",
      "extra"],
    none, none⟩⟩

/-- C5 counterexample: the claim says locators with a different number of
path segments are never equal, but `ChapterUrl::eq` zips the segment
iterators (truncating at the shorter), so a six-segment and a
seven-segment locator whose common prefix matches compare equal. -/
theorem chapter_url_eq_counterexample :
    ChapterUrl.eq cuSix cuSeven = true ∧
    (cuSix.url.pathSegments.map List.length = some 6) ∧
    (cuSeven.url.pathSegments.map List.length = some 7) := by
  refine ⟨by decide, rfl, rfl⟩

/-- Witness for C5 (amended), applying the characterization to the pair of
URLs from the repository's own `chapter_url_partial_eq` test. -/
theorem chapter_url_eq_characterization_witness :
    ∃ p1 p2,
      cuSix.url.pathSegments = some p1 ∧ cuSeven.url.pathSegments = some p2 ∧
      ∀ i s1 s2, p1.get? i = some s1 → p2.get? i = some s2 →
        i = 2 ∨ s1 = s2 :=
  (chapter_url_eq_characterization cuSix cuSeven).mp (by decide)

/-- A cannot-be-a-base URL (`mailto:user@example.com`): the url crate
returns `None` from `path_segments()` for it. -/
def cuMailto : ChapterUrl :=
  ⟨⟨"mailto", none, none, none, none, none⟩⟩

/-- C6 evaluation at the failing input: `ChapterUrl::eq` is **not**
reflexive. For a URL without path segments the `Option::zip` in the
source yields `None`, so the comparison returns `false` even against the
very same value — although the source declares `impl Eq for ChapterUrl`,
whose contract requires reflexivity. -/
theorem chapter_url_eq_not_refl_eval :
    ChapterUrl.eq cuMailto cuMailto = false := by
  decide

lemma chapterUrl_eq_symm (a b : ChapterUrl) :
    ChapterUrl.eq a b = ChapterUrl.eq b a := by
  rcases a with ⟨ua⟩
  rcases b with ⟨ub⟩
  unfold ChapterUrl.eq
  cases ha : ua.pathSegments with
  | none => cases hb : ub.pathSegments <;> rfl
  | some p1 =>
    cases hb : ub.pathSegments with
    | none => rfl
    | some p2 =>
      simp only []
      rw [Bool.eq_iff_iff, chapterUrl_eq_segs_iff p1 p2,
        chapterUrl_eq_segs_iff p2 p1]
      constructor
      · intro h i s1 s2 h1 h2
        rcases h i s2 s1 h2 h1 with hc | hc
        · exact Or.inl hc
        · exact Or.inr hc.symm
      · intro h i s1 s2 h1 h2
        rcases h i s2 s1 h2 h1 with hc | hc
        · exact Or.inl hc
        · exact Or.inr hc.symm

lemma chapterUrl_eq_refl_of_some (u : ChapterUrl) (p : List String)
    (h : u.url.pathSegments = some p) : ChapterUrl.eq u u = true := by
  unfold ChapterUrl.eq
  rw [h]
  apply (chapterUrl_eq_segs_iff p p).mpr
  intro i s1 s2 h1 h2
  right
  rw [h1] at h2
  exact (Option.some.injEq _ _).mp h2

/-- C10: `ChapterUrl` equality depends only on the path segments — the
result is unchanged under any difference in scheme, host, port, query or
fragment — and two locators whose segment sequences are identical (in
particular, the same path on different hosts) always compare equal. -/
theorem chapter_url_eq_path_only :
    (∀ a b a2 b2 : ChapterUrl,
      a.url.pathSegments = a2.url.pathSegments →
      b.url.pathSegments = b2.url.pathSegments →
      ChapterUrl.eq a b = ChapterUrl.eq a2 b2) ∧
    (∀ (a b : ChapterUrl) (p : List String),
      a.url.pathSegments = some p → b.url.pathSegments = some p →
      ChapterUrl.eq a b = true) := by
  constructor
  · intro a b a2 b2 h1 h2
    unfold ChapterUrl.eq
    rw [h1, h2]
  · intro a b p h1 h2
    unfold ChapterUrl.eq
    rw [h1, h2]
    apply (chapterUrl_eq_segs_iff p p).mpr
    intro i s1 s2 hg1 hg2
    right
    rw [hg1] at hg2
    exact (Option.some.injEq _ _).mp hg2

/-- The same path as `cuSix` served from a different scheme, host, port,
query and fragment. -/
def cuSixMirror : ChapterUrl :=
  ⟨⟨"http", some "mirror.example.org", some 8080,
    some ["fiction", "12345", "the-title", "chapter", "1234567", "chapter-name"],
    some "ref=rss", some "top"⟩⟩

/-- Witness for C10: a locator on a different host (and scheme, port,
query, fragment) with the same path segments compares equal to `cuSix`. -/
theorem chapter_url_eq_path_only_witness :
    ChapterUrl.eq cuSix cuSixMirror = true :=
  chapter_url_eq_path_only.2 cuSix cuSixMirror
    ["fiction", "12345", "the-title", "chapter", "1234567", "chapter-name"]
    rfl rfl

/-! ## Dedup of already-downloaded chapters (src/main.rs main) -/

/-- Model of `Vec::contains` on `Vec<ChapterUrl>`: any element of `cached` compares
equal (via `ChapterUrl::eq`) to `x`. -/
def cachedContains (cached : List ChapterUrl) (x : ChapterUrl) : Bool :=
  cached.any fun c => ChapterUrl.eq c x

/-- The dedup filter from src/main.rs line 272:
`chapters.retain(|(_, x)| !cached_chapters.contains(x))`. Chapters carry
the ordinal assigned by `enumerate()` before the filter runs. -/
def retainNotCached (cached : List ChapterUrl) (chs : List (Nat × ChapterUrl)) :
    List (Nat × ChapterUrl) :=
  chs.filter fun p => !(cachedContains cached p.2)

/-- C4: the dedup filter removes exactly the locators whose identity equals
some identity in the known set, keeps all others with their relative order
and ordinals (the result is a sublist of the input), and leaves nothing to
fetch when every fresh locator is already known. -/
theorem dedup_filter_correct (cached : List ChapterUrl)
    (chs : List (Nat × ChapterUrl)) :
    (∀ p, p ∈ retainNotCached cached chs ↔
      p ∈ chs ∧ cachedContains cached p.2 = false) ∧
    (∀ x, cachedContains cached x = true ↔
      ∃ c ∈ cached, ChapterUrl.eq c x = true) ∧
    List.Sublist (retainNotCached cached chs) chs ∧
    ((∀ p ∈ chs, cachedContains cached p.2 = true) →
      retainNotCached cached chs = []) := by
  refine ⟨?_, ?_, ?_, ?_⟩
  · intro p
    unfold retainNotCached
    rw [List.mem_filter]
    simp
  · intro x
    unfold cachedContains
    rw [List.any_eq_true]
  · exact List.filter_sublist chs
  · intro hall
    unfold retainNotCached
    rw [List.filter_eq_nil_iff]
    intro p hp
    simp [hall p hp]

/-- Witness for C4: with the known set holding an identity equal to the
only fresh locator (the title segment differs, which the identity
ignores), the filter leaves zero chapters to fetch. -/
theorem dedup_filter_correct_witness :
    retainNotCached [cuSix] [(0, cuSixMirror)] = [] :=
  (dedup_filter_correct [cuSix] [(0, cuSixMirror)]).2.2.2 (by decide)

/-! ## The output file (tokio::fs::File in src/main.rs) -/

/-- The on-disk state visible to src/main.rs: the output path, the output
file's bytes, the file cursor, and the backup file (path and contents) if
one has been written. Bytes are modelled as characters; every string the
program searches for or overwrites is ASCII, so char offsets coincide with
byte offsets. -/
structure FileSys where
  path : String
  file : List Char
  cursor : Nat
  backup : Option (String × List Char)
deriving DecidableEq, Repr

/-- Model of `f.write_all(w)`: overwrite `w.length` bytes at the cursor, extending
the file as needed; a cursor past end-of-file zero-fills the gap, as the
OS does. The cursor advances past the written bytes. -/
def writeAll (s : FileSys) (w : List Char) : FileSys :=
  { s with
    file := s.file.take s.cursor ++
      List.replicate (s.cursor - s.file.length) (Char.ofNat 0) ++
      w ++ s.file.drop (s.cursor + w.length),
    cursor := s.cursor + w.length }

/-- Model of `f.seek(SeekFrom::Start(n))`. -/
def seekStart (s : FileSys) (n : Nat) : FileSys :=
  { s with cursor := n }

/-- Model of `f.seek(SeekFrom::Current(-n))`; in the source the only backward seek
is by `END_HTML.len()` right after writing at least that many bytes, so
the truncating `Nat` subtraction is exact there. -/
def seekBackCur (s : FileSys) (n : Nat) : FileSys :=
  { s with cursor := s.cursor - n }

/-- The constant `END_HTML` from src/main.rs line 19. -/
def END_HTML : List Char := "</body></html>".toList

/-- The substring searched for by `start_incremental_append` (line 99). -/
def bodyClose : List Char := "</body>".toList

/-- One iteration of the drain loop (src/main.rs lines 291-309): write the
unit's title/link fragment, its transformed content, then `END_HTML`, and
seek back by exactly `END_HTML`'s length. -/
def appendChapter (s : FileSys) (frag content : List Char) : FileSys :=
  seekBackCur (writeAll s (frag ++ content ++ END_HTML)) END_HTML.length

lemma writeAll_prefix_length (s : FileSys) :
    (s.file.take s.cursor ++
      List.replicate (s.cursor - s.file.length) (Char.ofNat 0)).length =
      s.cursor := by
  rw [List.length_append, List.length_take, List.length_replicate]
  omega

lemma drop_take_middle (A u v R : List Char) :
    ((A ++ (u ++ (v ++ R))).drop (A.length + u.length)).take v.length = v := by
  have h1 : A ++ (u ++ (v ++ R)) = (A ++ u) ++ (v ++ R) := by
    simp [List.append_assoc]
  have h2 : A.length + u.length = (A ++ u).length := by simp
  rw [h1, h2, List.drop_left, List.take_left]

lemma writeAll_file_eq (s : FileSys) (w : List Char) :
    (writeAll s w).file =
      (s.file.take s.cursor ++
        List.replicate (s.cursor - s.file.length) (Char.ofNat 0)) ++
      (w ++ s.file.drop (s.cursor + w.length)) := by
  unfold writeAll
  simp [List.append_assoc]

/-- Whatever the state, `write_all` places its argument exactly at the
cursor: `u.length` bytes past the cursor of the new file, the next
`v.length` bytes are `v`, for any split `u ++ v` of the written data. -/
lemma writeAll_at_offset (s : FileSys) (u v : List Char) :
    (((writeAll s (u ++ v)).file.drop (s.cursor + u.length)).take v.length) =
      v := by
  have h := drop_take_middle
    (s.file.take s.cursor ++
      List.replicate (s.cursor - s.file.length) (Char.ofNat 0))
    u v (s.file.drop (s.cursor + (u ++ v).length))
  rw [writeAll_prefix_length s] at h
  rw [writeAll_file_eq]
  have hshape :
      ((s.file.take s.cursor ++
          List.replicate (s.cursor - s.file.length) (Char.ofNat 0)) ++
        ((u ++ v) ++ s.file.drop (s.cursor + (u ++ v).length))) =
      ((s.file.take s.cursor ++
          List.replicate (s.cursor - s.file.length) (Char.ofNat 0)) ++
        (u ++ (v ++ s.file.drop (s.cursor + (u ++ v).length)))) := by
    simp [List.append_assoc]
  rw [hshape]
  exact h

lemma writeAll_at_cursor (s : FileSys) (w : List Char) :
    (((writeAll s w).file.drop s.cursor).take w.length) = w := by
  have h := writeAll_at_offset s [] w
  simpa using h

lemma appendChapter_file (s : FileSys) (frag content : List Char) :
    (appendChapter s frag content).file =
      (writeAll s (frag ++ content ++ END_HTML)).file := rfl

lemma appendChapter_cursor (s : FileSys) (frag content : List Char) :
    (appendChapter s frag content).cursor =
      s.cursor + (frag.length + content.length) := by
  unfold appendChapter seekBackCur writeAll
  simp [List.length_append]
  omega

/-- C2: each drain-loop iteration writes the unit's title/link fragment,
then its content, then the end marker `"</body></html>"`, and seeks back
by exactly the marker's length. Afterwards the cursor sits at the
marker's first byte (the marker is the next `END_HTML.length` bytes of
the file), the cursor advanced by exactly the fragment plus content
length (i.e. the seek went back by exactly the marker length), and any
following write lands exactly on the marker, overwriting it rather than
appending after it. -/
theorem append_chapter_marker_invariant (s : FileSys) (frag content : List Char) :
    (appendChapter s frag content).cursor =
      s.cursor + (frag.length + content.length) ∧
    (appendChapter s frag content).cursor + END_HTML.length =
      (writeAll s (frag ++ content ++ END_HTML)).cursor ∧
    (((appendChapter s frag content).file.drop
        (appendChapter s frag content).cursor).take END_HTML.length) =
      END_HTML ∧
    (∀ w, (((writeAll (appendChapter s frag content) w).file.drop
        (appendChapter s frag content).cursor).take w.length) = w) := by
  refine ⟨appendChapter_cursor s frag content, ?_, ?_, ?_⟩
  · rw [appendChapter_cursor]
    unfold writeAll
    simp [List.length_append]
    omega
  · rw [appendChapter_file, appendChapter_cursor]
    have h := writeAll_at_offset s (frag ++ content) END_HTML
    have hshape : (frag ++ content) ++ END_HTML = frag ++ content ++ END_HTML := by
      simp [List.append_assoc]
    rw [hshape] at h
    have hlen : s.cursor + (frag ++ content).length =
        s.cursor + (frag.length + content.length) := by
      simp [List.length_append]
    rw [hlen] at h
    exact h
  · intro w
    exact writeAll_at_cursor (appendChapter s frag content) w

/-! ## Resume scanning (start_incremental_append, src/main.rs) -/

/-- Whether `pat` occurs in `hay` starting at index `i`. -/
def matchesAt (hay pat : List Char) (i : Nat) : Bool :=
  (hay.drop i).take pat.length == pat

/-- Scan indices `n-1, n-2, ..., 0` and return the first (largest) match. -/
def rfindAux (hay pat : List Char) : Nat → Option Nat
  | 0 => none
  | n + 1 => if matchesAt hay pat n then some n else rfindAux hay pat n

/-- Model of `str::rfind` for a plain substring pattern: byte index of the
rightmost occurrence. -/
def listRfind (hay pat : List Char) : Option Nat :=
  rfindAux hay pat (hay.length + 1)

lemma rfindAux_some (hay pat : List Char) (n i : Nat)
    (h : rfindAux hay pat n = some i) :
    i < n ∧ matchesAt hay pat i = true ∧
      ∀ j, i < j → j < n → matchesAt hay pat j = false := by
  induction n with
  | zero => simp [rfindAux] at h
  | succ m ih =>
    unfold rfindAux at h
    by_cases hm : matchesAt hay pat m = true
    · rw [if_pos hm] at h
      cases h
      exact ⟨Nat.lt_succ_self _, hm, fun j hj1 hj2 => absurd hj2 (by omega)⟩
    · rw [if_neg hm] at h
      obtain ⟨h1, h2, h3⟩ := ih h
      refine ⟨by omega, h2, ?_⟩
      intro j hj1 hj2
      by_cases hjm : j = m
      · subst hjm
        exact Bool.eq_false_iff.mpr hm
      · exact h3 j hj1 (by omega)

lemma rfindAux_none (hay pat : List Char) (n : Nat) :
    rfindAux hay pat n = none ↔ ∀ j, j < n → matchesAt hay pat j = false := by
  induction n with
  | zero => simp [rfindAux]
  | succ m ih =>
    unfold rfindAux
    by_cases hm : matchesAt hay pat m = true
    · rw [if_pos hm]
      constructor
      · intro h
        exact Option.noConfusion h
      · intro h
        have hcontra := h m (Nat.lt_succ_self m)
        rw [hm] at hcontra
        exact Bool.noConfusion hcontra
    · rw [if_neg hm]
      rw [ih]
      constructor
      · intro h j hj
        by_cases hjm : j = m
        · subst hjm; exact Bool.eq_false_iff.mpr hm
        · exact h j (by omega)
      · intro h j hj
        exact h j (by omega)

lemma matchesAt_false_of_big (hay pat : List Char) (hpat : pat ≠ [])
    (j : Nat) (hj : hay.length ≤ j) : matchesAt hay pat j = false := by
  unfold matchesAt
  have hdrop : hay.drop j = [] := List.drop_eq_nil_of_le hj
  rw [hdrop]
  simp only [List.take_nil]
  cases pat with
  | nil => exact absurd rfl hpat
  | cons a t => rfl

lemma listRfind_some (hay pat : List Char) (i : Nat) (hpat : pat ≠ [])
    (h : listRfind hay pat = some i) :
    matchesAt hay pat i = true ∧ ∀ j, i < j → matchesAt hay pat j = false := by
  obtain ⟨h1, h2, h3⟩ := rfindAux_some hay pat (hay.length + 1) i h
  refine ⟨h2, ?_⟩
  intro j hj
  by_cases hjn : j < hay.length + 1
  · exact h3 j hj hjn
  · exact matchesAt_false_of_big hay pat hpat j (by omega)

lemma listRfind_none (hay pat : List Char) (hpat : pat ≠ []) :
    listRfind hay pat = none ↔ ∀ j, matchesAt hay pat j = false := by
  unfold listRfind
  rw [rfindAux_none]
  constructor
  · intro h j
    by_cases hjn : j < hay.length + 1
    · exact h j hjn
    · exact matchesAt_false_of_big hay pat hpat j (by omega)
  · intro h j _
    exact h j

/-- Model of `start_incremental_append` (src/main.rs lines 80-104): read the whole
file (leaving the cursor at end-of-file), extract the cached chapter
links, then — only if `"</body>"` occurs — seek to the offset of its
rightmost occurrence. Extraction of the `h1 > a[class="chapter"][href]`
links is the HTML parse done by the scraper crate, an external
collaborator (spec section 6), and is passed in as `extract`. -/
def startIncrementalAppend (extract : List Char → List ChapterUrl)
    (s : FileSys) : FileSys × List ChapterUrl :=
  let text := s.file
  let s1 : FileSys := { s with cursor := s.file.length }
  let cached := extract text
  let s2 : FileSys :=
    match listRfind text bodyClose with
    | some off => seekStart s1 off
    | none => s1
  (s2, cached)

/-- The file header written by main (src/main.rs lines 240-247). -/
def headerFor (title : List Char) : List Char :=
  "<html><head><meta charset=\"UTF-8\"><title>".toList ++ title ++
    "</title></head><body>".toList

/-- The resume-mode part of `main` (src/main.rs lines 215-248): run the
scanner, and when it recovered no chapter URL copy the file to
`path ++ ".bk"`, then seek to offset 0 and write the header. When at
least one chapter URL was recovered, neither happens. -/
def resumePhase (extract : List Char → List ChapterUrl) (title : List Char)
    (s : FileSys) : FileSys × List ChapterUrl :=
  let r := startIncrementalAppend extract s
  let s1 := r.1
  let cached := r.2
  let s2 : FileSys :=
    if cached.isEmpty then
      { s1 with backup := some (s1.path ++ ".bk", s1.file) }
    else s1
  let s3 : FileSys :=
    if cached.isEmpty then writeAll (seekStart s2 0) (headerFor title)
    else s2
  (s3, cached)

lemma writeAll_head (s : FileSys) (w : List Char) (h0 : s.cursor = 0) :
    (writeAll s w).file.take w.length = w := by
  have h := writeAll_at_cursor s w
  rw [h0] at h
  simpa using h

/-- C3 (amended): if the file's text contains `"</body>"`, the scanner
seeks the cursor to the byte offset of the **rightmost** occurrence; if it
does not, the cursor stays where `read_to_string` left it — at
**end-of-file**, not at offset 0. Independently, the header is rewritten
from offset 0 exactly when the scanner recovered zero chapter URLs; when
at least one was recovered, the resume phase changes nothing beyond the
scanner's seek. -/
theorem resume_scanner_amended (extract : List Char → List ChapterUrl)
    (title : List Char) (s : FileSys) :
    (∀ off, listRfind s.file bodyClose = some off →
      ((startIncrementalAppend extract s).1.cursor = off ∧
        matchesAt s.file bodyClose off = true ∧
        ∀ j, off < j → matchesAt s.file bodyClose j = false)) ∧
    (listRfind s.file bodyClose = none →
      (startIncrementalAppend extract s).1.cursor = s.file.length) ∧
    (extract s.file = [] →
      (resumePhase extract title s).1.file.take (headerFor title).length =
        headerFor title) ∧
    (extract s.file ≠ [] →
      (resumePhase extract title s).1 = (startIncrementalAppend extract s).1) := by
  refine ⟨?_, ?_, ?_, ?_⟩
  · intro off h
    have hchar := listRfind_some s.file bodyClose off (by decide) h
    refine ⟨?_, hchar.1, hchar.2⟩
    unfold startIncrementalAppend
    simp only [h]
    rfl
  · intro h
    unfold startIncrementalAppend
    simp only [h]
  · intro h
    unfold resumePhase startIncrementalAppend
    simp only [h, List.isEmpty_nil, if_pos]
    apply writeAll_head
    rfl
  · intro h
    have hne : ((startIncrementalAppend extract s).2).isEmpty = false := by
      show (extract s.file).isEmpty = false
      cases hx : extract s.file with
      | nil => exact absurd hx h
      | cons a t => rfl
    unfold resumePhase
    simp [hne]

/-- An extractor that recovers no chapter link (what the scraper returns
on a document with no `h1 > a[class="chapter"][href]` anchor). -/
def extractNone : List Char → List ChapterUrl := fun _ => []

/-- An extractor that recovers one chapter link — what the scraper returns
on a truncated file that still holds one intact
`<h1><a class="chapter" href=...>` record but whose trailing
`"</body></html>"` was overwritten by a partial chapter write. -/
def extractStub : List Char → List ChapterUrl := fun _ => [cuSix]

/-- A five-byte output file with no `"</body>"` in it. -/
def fsNoBody : FileSys :=
  { path := "out.html", file := "hello".toList, cursor := 0, backup := none }

/-- A file that ends with the end marker; `"</body>"` occurs exactly once,
at offset 2. -/
def fsWithBody : FileSys :=
  { path := "out.html", file := "AB</body></html>".toList, cursor := 0,
    backup := none }

/-- C3 counterexample: on a file whose text does **not** contain
`"</body>"` but from which a chapter link is still recoverable, the claim
says the resume offset is 0 and the header is rewritten from offset 0;
the code instead leaves the cursor at end-of-file (offset 5 here) and
never rewrites the header (the file is unchanged). -/
theorem resume_offset_counterexample :
    listRfind fsNoBody.file bodyClose = none ∧
    (resumePhase extractStub "T".toList fsNoBody).1.cursor ≠ 0 ∧
    (resumePhase extractStub "T".toList fsNoBody).1.file = fsNoBody.file := by
  refine ⟨by decide, by decide, by decide⟩

/-- Witness for C3 (amended): on `fsWithBody` the scanner seeks to offset
2, the rightmost `"</body>"`; with zero recovered chapter URLs the header
is rewritten at offset 0. -/
theorem resume_scanner_amended_witness :
    (startIncrementalAppend extractNone fsWithBody).1.cursor = 2 ∧
    (resumePhase extractNone "T".toList fsWithBody).1.file.take
      (headerFor "T".toList).length = headerFor "T".toList :=
  ⟨((resume_scanner_amended extractNone "T".toList fsWithBody).1 2
      (by decide)).1,
    (resume_scanner_amended extractNone "T".toList fsWithBody).2.2.1 rfl⟩

/-- C8: when the resuming run recovers zero chapter URLs from the existing
file, the file is copied to `path ++ ".bk"` before any byte of it is
overwritten — the backup holds the file's **original** contents `s.file`;
when at least one URL is recovered, no backup is made. -/
theorem backup_on_empty_cache (extract : List Char → List ChapterUrl)
    (title : List Char) (s : FileSys) (h0 : s.backup = none) :
    (extract s.file = [] →
      (resumePhase extract title s).1.backup =
        some (s.path ++ ".bk", s.file)) ∧
    (extract s.file ≠ [] →
      (resumePhase extract title s).1.backup = none) := by
  constructor
  · intro h
    unfold resumePhase startIncrementalAppend
    cases hrf : listRfind s.file bodyClose with
    | none => simp [hrf, h, seekStart, writeAll]
    | some off => simp [hrf, h, seekStart, writeAll]
  · intro h
    have hne : (extract s.file).isEmpty = false := by
      cases hx : extract s.file with
      | nil => exact absurd hx h
      | cons a t => rfl
    unfold resumePhase startIncrementalAppend
    cases hrf : listRfind s.file bodyClose with
    | none => simp [hrf, hne, seekStart, h0]
    | some off => simp [hrf, hne, seekStart, h0]

/-- Witness for C8: resuming over `fsNoBody` with nothing recoverable
copies `"hello"` to `out.html.bk`; with one recoverable URL the backup
stays absent. -/
theorem backup_on_empty_cache_witness :
    (resumePhase extractNone "T".toList fsNoBody).1.backup =
      some ("out.html" ++ ".bk", "hello".toList) ∧
    (resumePhase extractStub "T".toList fsNoBody).1.backup = none :=
  ⟨(backup_on_empty_cache extractNone "T".toList fsNoBody rfl).1 rfl,
    (backup_on_empty_cache extractStub "T".toList fsNoBody rfl).2
      (by decide)⟩
